import Mathlib

/-!
Verification of the SwitchTube downloader's media-resolution and download
pipeline.

Go strings are modelled as `List Char` and Go byte streams as lists of
read events.  The definitions below are shallow embeddings of the Go
functions of the repository (package `media` / `download` / `file` /
`ui`); each definition carries a comment naming its Go counterpart.
Machine integers (`int`, `int64`) are modelled as `Int`; the only place
where the 64-bit range matters is `strconv.Atoi`, whose range rejection
is modelled explicitly.
-/

set_option autoImplicit false

namespace GoStr

/-- Model of `strings.HasPrefix p s` (argument order: pattern first). -/
def startsWith (p s : List Char) : Bool :=
  match p, s with
  | [], _ => true
  | _ :: _, [] => false
  | a :: ps, b :: ss => a = b && startsWith ps ss

/-- Model of `strings.TrimPrefix` (returns `s` unchanged when the pattern
does not match). -/
def trimLeading (p s : List Char) : List Char :=
  if startsWith p s then s.drop p.length else s

/-- Model of `unicode.IsSpace`: the White_Space code points recognised by
Go's `strings.TrimSpace`. -/
def isGoSpace (c : Char) : Bool :=
  c.toNat ∈ [0x09, 0x0A, 0x0B, 0x0C, 0x0D, 0x20, 0x85, 0xA0, 0x1680,
    0x2000, 0x2001, 0x2002, 0x2003, 0x2004, 0x2005, 0x2006, 0x2007,
    0x2008, 0x2009, 0x200A, 0x2028, 0x2029, 0x202F, 0x205F, 0x3000]

/-- Leading-whitespace removal, one side of `strings.TrimSpace`. -/
def trimLeftSpace (s : List Char) : List Char :=
  s.dropWhile isGoSpace

/-- Model of `strings.TrimSpace`: drop White_Space characters from both
ends. -/
def trimSpace (s : List Char) : List Char :=
  trimLeftSpace ((trimLeftSpace s.reverse).reverse)

/-- Accumulator worker for `fieldsFunc`. -/
def fieldsFuncAux (p : Char → Bool) : List Char → List Char → List (List Char)
  | [], acc => if acc.isEmpty then [] else [acc.reverse]
  | c :: cs, acc =>
    if p c then
      if acc.isEmpty then fieldsFuncAux p cs []
      else acc.reverse :: fieldsFuncAux p cs []
    else fieldsFuncAux p cs (c :: acc)

/-- Model of `strings.FieldsFunc`: split at runs of separator characters,
never producing empty fields. -/
def fieldsFunc (p : Char → Bool) (s : List Char) : List (List Char) :=
  fieldsFuncAux p s []

/-- Accumulator worker for `splitOnChar`. -/
def splitOnCharAux (sep : Char) : List Char → List Char → List (List Char)
  | [], acc => [acc.reverse]
  | c :: cs, acc =>
    if c = sep then acc.reverse :: splitOnCharAux sep cs []
    else splitOnCharAux sep cs (c :: acc)

/-- Model of `strings.Split s sep` for a one-character separator (the only
form the repository uses). -/
def splitOnChar (sep : Char) (s : List Char) : List (List Char) :=
  splitOnCharAux sep s []

/-- Model of `strings.Contains s p` (pattern as second Go argument; here the
pattern comes first). -/
def containsList (p : List Char) : List Char → Bool
  | [] => p.isEmpty
  | c :: cs => startsWith p (c :: cs) || containsList p cs

theorem startsWith_length_le {p s : List Char} (h : startsWith p s = true) :
    p.length ≤ s.length := by
  induction p generalizing s with
  | nil => simp
  | cons a ps ih =>
    cases s with
    | nil => simp [startsWith] at h
    | cons b ss =>
      simp only [startsWith, Bool.and_eq_true, decide_eq_true_eq] at h
      simpa using ih h.2

/-- Model of `strings.ReplaceAll s pat rep`: replace every non-overlapping
leftmost occurrence.  The repository never calls it with an empty pattern,
which is mapped to the identity here. -/
def replaceAll (pat rep : List Char) : List Char → List Char
  | [] => []
  | c :: cs =>
    if hp : pat = [] then c :: cs
    else
      if startsWith pat (c :: cs) then
        rep ++ replaceAll pat rep ((c :: cs).drop pat.length)
      else
        c :: replaceAll pat rep cs
termination_by s => s.length
decreasing_by
  · rename_i hpre
    have h1 : pat.length ≤ (c :: cs).length := startsWith_length_le hpre
    have h2 : 0 < pat.length := List.length_pos.mpr hp
    simp only [List.length_drop, List.length_cons]
    omega
  · simp

/-- Model of `strings.Join` (used to state the result of `filepath.Clean`). -/
def joinSep (sep : List Char) : List (List Char) → List Char
  | [] => []
  | [x] => x
  | x :: y :: xs => x ++ sep ++ joinSep sep (y :: xs)

theorem startsWith_append (p r : List Char) : startsWith p (p ++ r) = true := by
  induction p with
  | nil => rfl
  | cons a ps ih => simpa [startsWith] using ih

theorem trimLeading_append (p r : List Char) : trimLeading p (p ++ r) = r := by
  simp [trimLeading, startsWith_append]

theorem replaceAll_nil (pat rep : List Char) : replaceAll pat rep [] = [] := by
  rw [replaceAll.eq_def]

theorem replaceAll_cons_ne (pat rep : List Char) (hp : pat ≠ []) (c : Char)
    (cs : List Char) :
    replaceAll pat rep (c :: cs) =
      if startsWith pat (c :: cs) = true then
        rep ++ replaceAll pat rep ((c :: cs).drop pat.length)
      else
        c :: replaceAll pat rep cs := by
  rw [replaceAll.eq_def]
  simp [hp]

/-- Single-character replacement is a pointwise rewrite of the string. -/
theorem replaceAll_single_eq_flatMap (a : Char) (rep : List Char) (s : List Char) :
    replaceAll [a] rep s = s.flatMap (fun c => if c = a then rep else [c]) := by
  induction s with
  | nil => simp [replaceAll_nil]
  | cons c cs ih =>
    rw [replaceAll_cons_ne [a] rep (by simp) c cs]
    by_cases hca : a = c
    · subst hca
      rw [if_pos (by simp [startsWith])]
      simp [ih]
    · rw [if_neg (by simp [startsWith, hca])]
      simp [ih, Ne.symm hca]

theorem mem_replaceAll {pat rep : List Char} (hp : pat ≠ []) {c : Char} :
    ∀ {s : List Char}, c ∈ replaceAll pat rep s → c ∈ s ∨ c ∈ rep := by
  suffices H : ∀ n, ∀ s : List Char, s.length ≤ n →
      c ∈ replaceAll pat rep s → c ∈ s ∨ c ∈ rep by
    intro s h
    exact H s.length s le_rfl h
  intro n
  induction n with
  | zero =>
    intro s hs h
    have hnil : s = [] := List.length_eq_zero.mp (Nat.le_zero.mp hs)
    subst hnil
    rw [replaceAll_nil] at h
    simp at h
  | succ n ih =>
    intro s hs h
    cases s with
    | nil =>
      rw [replaceAll_nil] at h
      simp at h
    | cons d ds =>
      rw [replaceAll_cons_ne pat rep hp d ds] at h
      by_cases hpre : startsWith pat (d :: ds) = true
      · rw [if_pos hpre] at h
        rcases List.mem_append.mp h with h | h
        · exact Or.inr h
        · have hplen : 0 < pat.length := List.length_pos.mpr hp
          have hlen : ((d :: ds).drop pat.length).length ≤ n := by
            simp only [List.length_drop, List.length_cons]
            simp only [List.length_cons] at hs
            omega
          rcases ih _ hlen h with h | h
          · exact Or.inl (List.mem_of_mem_drop h)
          · exact Or.inr h
      · rw [if_neg hpre] at h
        rcases List.mem_cons.mp h with h | h
        · exact Or.inl (h ▸ List.mem_cons_self d ds)
        · have hlen : ds.length ≤ n := by
            simp only [List.length_cons] at hs
            omega
          rcases ih ds hlen h with h | h
          · exact Or.inl (List.mem_cons_of_mem d h)
          · exact Or.inr h

theorem length_replaceAll_le {pat rep : List Char} (hp : pat ≠ [])
    (hr : rep.length ≤ pat.length) :
    ∀ s : List Char, (replaceAll pat rep s).length ≤ s.length := by
  suffices H : ∀ n, ∀ s : List Char, s.length ≤ n →
      (replaceAll pat rep s).length ≤ s.length by
    intro s
    exact H s.length s le_rfl
  intro n
  induction n with
  | zero =>
    intro s hs
    have hnil : s = [] := List.length_eq_zero.mp (Nat.le_zero.mp hs)
    subst hnil
    simp [replaceAll_nil]
  | succ n ih =>
    intro s hs
    cases s with
    | nil => simp [replaceAll_nil]
    | cons d ds =>
      rw [replaceAll_cons_ne pat rep hp d ds]
      by_cases hpre : startsWith pat (d :: ds) = true
      · rw [if_pos hpre]
        have hple : pat.length ≤ (d :: ds).length := startsWith_length_le hpre
        have hplen : 0 < pat.length := List.length_pos.mpr hp
        have hlen : ((d :: ds).drop pat.length).length ≤ n := by
          simp only [List.length_drop, List.length_cons]
          simp only [List.length_cons] at hs
          omega
        have hrec := ih _ hlen
        simp only [List.length_append, List.length_drop, List.length_cons] at *
        omega
      · rw [if_neg hpre]
        have hlen : ds.length ≤ n := by
          simp only [List.length_cons] at hs
          omega
        have hrec := ih ds hlen
        simp only [List.length_cons]
        omega

theorem length_replaceAll_lt {pat rep : List Char}
    (hr : rep.length < pat.length) :
    ∀ {s : List Char}, containsList pat s = true →
      (replaceAll pat rep s).length < s.length := by
  have hp : pat ≠ [] := by
    intro h
    subst h
    simp at hr
  intro s
  induction s with
  | nil =>
    intro hc
    simp only [containsList, List.isEmpty_iff] at hc
    exact absurd hc hp
  | cons c cs ih =>
    intro hc
    rw [replaceAll_cons_ne pat rep hp c cs]
    by_cases hpre : startsWith pat (c :: cs) = true
    · rw [if_pos hpre]
      have hple : pat.length ≤ (c :: cs).length := startsWith_length_le hpre
      have hrest := length_replaceAll_le hp (le_of_lt hr) ((c :: cs).drop pat.length)
      simp only [List.length_append, List.length_drop, List.length_cons] at *
      omega
    · rw [if_neg hpre]
      simp only [containsList, Bool.or_eq_true] at hc
      rcases hc with hc | hc
      · exact absurd hc hpre
      · have := ih hc
        simp only [List.length_cons]
        omega

theorem containsList_single (a : Char) (s : List Char) :
    containsList [a] s = true ↔ a ∈ s := by
  induction s with
  | nil => simp [containsList]
  | cons c cs ih =>
    have hsw : startsWith [a] (c :: cs) = decide (a = c) := by
      simp [startsWith]
    simp only [containsList, hsw, Bool.or_eq_true, decide_eq_true_eq, ih,
      List.mem_cons]

/-- Absence of a doubled character is adjacency-freedom. -/
theorem containsList_pair_eq_false_iff (x : Char) (s : List Char) :
    containsList [x, x] s = false ↔
      List.Chain' (fun a b => ¬(a = x ∧ b = x)) s := by
  induction s with
  | nil => simp [containsList]
  | cons c cs ih =>
    cases cs with
    | nil => simp [containsList, startsWith]
    | cons d ds =>
      have hsw : startsWith [x, x] (c :: d :: ds) =
          (decide (x = c) && decide (x = d)) := by
        simp [startsWith]
      rw [List.chain'_cons, ← ih]
      simp only [containsList, hsw]
      constructor
      · intro h
        rw [Bool.or_eq_false_iff] at h
        obtain ⟨h1, h2⟩ := h
        refine ⟨fun hcd => ?_, h2⟩
        obtain ⟨hc, hd⟩ := hcd
        rw [hc, hd] at h1
        simp at h1
      · intro h
        obtain ⟨h1, h2⟩ := h
        rw [Bool.or_eq_false_iff]
        refine ⟨?_, h2⟩
        by_cases hc : x = c
        · by_cases hd : x = d
          · exact absurd ⟨hc.symm, hd.symm⟩ h1
          · simp [hd]
        · simp [hc]

theorem fieldsFuncAux_nosep (p : Char → Bool) (s : List Char)
    (h : ∀ c ∈ s, p c = false) (acc : List Char) :
    fieldsFuncAux p s acc =
      if (acc.reverse ++ s).isEmpty then [] else [acc.reverse ++ s] := by
  induction s generalizing acc with
  | nil => simp [fieldsFuncAux]
  | cons c cs ih =>
    have hc : p c = false := h c (List.mem_cons_self c cs)
    have hcs : ∀ x ∈ cs, p x = false := fun x hx => h x (List.mem_cons_of_mem c hx)
    simp only [fieldsFuncAux, hc, Bool.false_eq_true, if_false, ih hcs]
    simp

theorem fieldsFunc_nosep (p : Char → Bool) (s : List Char)
    (h : ∀ c ∈ s, p c = false) (hne : s ≠ []) :
    fieldsFunc p s = [s] := by
  rw [fieldsFunc, fieldsFuncAux_nosep p s h []]
  simp [hne]

theorem splitOnCharAux_nosep (sep : Char) (s : List Char)
    (h : ∀ c ∈ s, c ≠ sep) (acc : List Char) :
    splitOnCharAux sep s acc = [acc.reverse ++ s] := by
  induction s generalizing acc with
  | nil => simp [splitOnCharAux]
  | cons c cs ih =>
    have hc : c ≠ sep := h c (List.mem_cons_self c cs)
    have hcs : ∀ x ∈ cs, x ≠ sep := fun x hx => h x (List.mem_cons_of_mem c hx)
    simp [splitOnCharAux, hc, ih hcs]

theorem splitOnChar_nosep (sep : Char) (s : List Char)
    (h : ∀ c ∈ s, c ≠ sep) : splitOnChar sep s = [s] := by
  simpa using splitOnCharAux_nosep sep s h []

theorem splitOnCharAux_pair (sep : Char) (b : List Char)
    (hb : ∀ c ∈ b, c ≠ sep) :
    ∀ a : List Char, (∀ c ∈ a, c ≠ sep) → ∀ acc : List Char,
      splitOnCharAux sep (a ++ sep :: b) acc = [acc.reverse ++ a, b] := by
  intro a
  induction a with
  | nil =>
    intro _ acc
    simp [splitOnCharAux, splitOnCharAux_nosep sep b hb]
  | cons c cs ih =>
    intro ha acc
    have hc : c ≠ sep := ha c (List.mem_cons_self c cs)
    have hcs : ∀ x ∈ cs, x ≠ sep := fun x hx => ha x (List.mem_cons_of_mem c hx)
    have step : splitOnCharAux sep (c :: (cs ++ sep :: b)) acc =
        splitOnCharAux sep (cs ++ sep :: b) (c :: acc) := by
      simp [splitOnCharAux, hc]
    rw [List.cons_append, step, ih hcs (c :: acc)]
    simp

theorem splitOnChar_pair (sep : Char) (a b : List Char)
    (ha : ∀ c ∈ a, c ≠ sep) (hb : ∀ c ∈ b, c ≠ sep) :
    splitOnChar sep (a ++ sep :: b) = [a, b] := by
  rw [splitOnChar, splitOnCharAux_pair sep b hb a ha []]
  simp

/-- Splitting `g ++ b` where `b` is separator-free: the final field carries
`b` as a suffix. -/
theorem splitOnCharAux_append_tail (sep : Char) (b : List Char)
    (hb : ∀ c ∈ b, c ≠ sep) (g : List Char) :
    ∀ acc : List Char, ∃ pre x,
      splitOnCharAux sep (g ++ b) acc = pre ++ [x ++ b] := by
  induction g with
  | nil =>
    intro acc
    exact ⟨[], acc.reverse, by simpa using splitOnCharAux_nosep sep b hb acc⟩
  | cons c cs ih =>
    intro acc
    by_cases hc : c = sep
    · subst hc
      rcases ih [] with ⟨pre, x, hx⟩
      exact ⟨acc.reverse :: pre, x, by simp [splitOnCharAux, hx]⟩
    · rcases ih (c :: acc) with ⟨pre, x, hx⟩
      exact ⟨pre, x, by simp [splitOnCharAux, hc, hx]⟩

theorem trimLeftSpace_eq_self {s : List Char}
    (h : ∀ c ∈ s, isGoSpace c = false) : trimLeftSpace s = s := by
  cases s with
  | nil => rfl
  | cons c cs =>
    rw [trimLeftSpace, List.dropWhile_cons, h c (List.mem_cons_self c cs)]
    simp

theorem trimSpace_eq_self {s : List Char}
    (h : ∀ c ∈ s, isGoSpace c = false) : trimSpace s = s := by
  have h1 : trimLeftSpace s.reverse = s.reverse :=
    trimLeftSpace_eq_self (by simpa using h)
  rw [trimSpace, h1, List.reverse_reverse, trimLeftSpace_eq_self h]

theorem mem_trimLeftSpace {s : List Char} {c : Char}
    (h : c ∈ trimLeftSpace s) : c ∈ s := by
  induction s with
  | nil => simpa [trimLeftSpace] using h
  | cons d ds ih =>
    rw [trimLeftSpace, List.dropWhile_cons] at h
    by_cases hd : isGoSpace d = true
    · rw [if_pos hd] at h
      exact List.mem_cons_of_mem d (ih h)
    · rw [if_neg hd] at h
      exact h

theorem mem_trimSpace {s : List Char} {c : Char}
    (h : c ∈ trimSpace s) : c ∈ s := by
  rw [trimSpace] at h
  have h1 := mem_trimLeftSpace h
  rw [List.mem_reverse] at h1
  have h2 := mem_trimLeftSpace h1
  rwa [List.mem_reverse] at h2

/-- The decimal-digit test of `strconv.ParseInt`. -/
def isDigitChar (c : Char) : Bool :=
  48 ≤ c.toNat && c.toNat ≤ 57

/-- Decimal digit character (helper used to build decimal tokens; only
invoked on values below ten). -/
def decDigit (d : Nat) : Char :=
  match d with
  | 0 => '0'
  | 1 => '1'
  | 2 => '2'
  | 3 => '3'
  | 4 => '4'
  | 5 => '5'
  | 6 => '6'
  | 7 => '7'
  | 8 => '8'
  | _ => '9'

/-- Decimal representation of a natural number (most significant digit
first), the form in which selection tokens are written. -/
def natToDec (n : Nat) : List Char :=
  if n < 10 then [decDigit n]
  else natToDec (n / 10) ++ [decDigit (n % 10)]
termination_by n
decreasing_by exact Nat.div_lt_self (by omega) (by omega)

/-- Digit-accumulation loop of `strconv.ParseInt` (base 10). -/
def parseDigitsAcc (acc : Nat) : List Char → Option Nat
  | [] => some acc
  | c :: cs =>
    if isDigitChar c then parseDigitsAcc (acc * 10 + (c.toNat - 48)) cs
    else none

/-- Magnitude parsing and 64-bit range rejection of `strconv.ParseInt`
(`strconv.Atoi` uses `bitSize 0`, i.e. the 64-bit `int`). -/
def atoiCore (neg : Bool) (digits : List Char) : Option Int :=
  if digits.isEmpty then none
  else
    match parseDigitsAcc 0 digits with
    | none => none
    | some v =>
      if neg then
        if v ≤ 2 ^ 63 then some (-(v : Int)) else none
      else
        if v ≤ 2 ^ 63 - 1 then some (v : Int) else none

/-- Model of `strconv.Atoi`: optional sign followed by a non-empty digit
string, with 64-bit range rejection. -/
def goAtoi (s : List Char) : Option Int :=
  match s with
  | [] => none
  | c :: rest =>
    if c = '-' then atoiCore true rest
    else if c = '+' then atoiCore false rest
    else atoiCore false (c :: rest)

theorem decDigit_toNat {d : Nat} (h : d < 10) : (decDigit d).toNat = 48 + d := by
  interval_cases d <;> rfl

theorem decDigit_isDigit {d : Nat} (h : d < 10) : isDigitChar (decDigit d) = true := by
  interval_cases d <;> rfl

theorem isDigitChar_bounds {c : Char} (h : isDigitChar c = true) :
    48 ≤ c.toNat ∧ c.toNat ≤ 57 := by
  simp only [isDigitChar, Bool.and_eq_true, decide_eq_true_eq] at h
  exact h

theorem isDigitChar_ne_dash {c : Char} (h : isDigitChar c = true) : c ≠ '-' := by
  intro hc
  subst hc
  simp [isDigitChar] at h

theorem isDigitChar_ne_plus {c : Char} (h : isDigitChar c = true) : c ≠ '+' := by
  intro hc
  subst hc
  simp [isDigitChar] at h

theorem isDigitChar_ne_comma {c : Char} (h : isDigitChar c = true) : c ≠ ',' := by
  intro hc
  subst hc
  simp [isDigitChar] at h

theorem isDigitChar_ne_space {c : Char} (h : isDigitChar c = true) : c ≠ ' ' := by
  intro hc
  subst hc
  simp [isDigitChar] at h

theorem isDigitChar_not_goSpace {c : Char} (h : isDigitChar c = true) :
    isGoSpace c = false := by
  obtain ⟨h1, h2⟩ := isDigitChar_bounds h
  apply decide_eq_false
  intro hmem
  simp only [List.mem_cons, List.not_mem_nil, or_false] at hmem
  omega

theorem natToDec_ne_nil (n : Nat) : natToDec n ≠ [] := by
  rw [natToDec]
  by_cases h : n < 10
  · simp [h]
  · simp [h]

theorem natToDec_digits : ∀ n, ∀ c ∈ natToDec n, isDigitChar c = true := by
  intro n
  induction n using Nat.strong_induction_on with
  | _ n ih =>
    rw [natToDec]
    by_cases h : n < 10
    · rw [if_pos h]
      intro c hc
      simp only [List.mem_singleton] at hc
      subst hc
      exact decDigit_isDigit h
    · rw [if_neg h]
      intro c hc
      rcases List.mem_append.mp hc with hc | hc
      · exact ih (n / 10) (Nat.div_lt_self (by omega) (by omega)) c hc
      · simp only [List.mem_singleton] at hc
        subst hc
        exact decDigit_isDigit (Nat.mod_lt n (by omega))

theorem parseDigitsAcc_append (xs ys : List Char) :
    ∀ acc, parseDigitsAcc acc (xs ++ ys) =
      (parseDigitsAcc acc xs).bind (fun a => parseDigitsAcc a ys) := by
  induction xs with
  | nil => intro acc; rfl
  | cons c cs ih =>
    intro acc
    by_cases hc : isDigitChar c = true
    · simp only [List.cons_append, parseDigitsAcc, if_pos hc]
      exact ih _
    · simp only [List.cons_append, parseDigitsAcc, if_neg hc, Option.bind]

theorem parseDigitsAcc_natToDec :
    ∀ n acc, parseDigitsAcc acc (natToDec n) =
      some (acc * 10 ^ (natToDec n).length + n) := by
  intro n
  induction n using Nat.strong_induction_on with
  | _ n ih =>
    intro acc
    rw [natToDec]
    by_cases h : n < 10
    · rw [if_pos h]
      simp only [parseDigitsAcc, if_pos (decDigit_isDigit h), decDigit_toNat h]
      simp only [List.length_singleton, pow_one]
      congr 1
      omega
    · rw [if_neg h]
      rw [parseDigitsAcc_append]
      rw [ih (n / 10) (Nat.div_lt_self (by omega) (by omega)) acc]
      have hd : n % 10 < 10 := Nat.mod_lt n (by omega)
      simp only [Option.some_bind, parseDigitsAcc, if_pos (decDigit_isDigit hd),
        decDigit_toNat hd]
      simp only [List.length_append, List.length_singleton, pow_succ]
      congr 1
      have hsub : 48 + n % 10 - 48 = n % 10 := by omega
      rw [hsub]
      have hmod : n / 10 * 10 + n % 10 = n := by omega
      calc (acc * 10 ^ (natToDec (n / 10)).length + n / 10) * 10 + n % 10
          = acc * (10 ^ (natToDec (n / 10)).length * 10) +
              (n / 10 * 10 + n % 10) := by ring
        _ = acc * (10 ^ (natToDec (n / 10)).length * 10) + n := by rw [hmod]

theorem goAtoi_natToDec {n : Nat} (h : n < 2 ^ 63) :
    goAtoi (natToDec n) = some (n : Int) := by
  obtain ⟨c, cs, hcc⟩ := List.exists_cons_of_ne_nil (natToDec_ne_nil n)
  have hdig : isDigitChar c = true := by
    apply natToDec_digits n
    rw [hcc]
    exact List.mem_cons_self c cs
  have hparse : parseDigitsAcc 0 (c :: cs) = some n := by
    have hp := parseDigitsAcc_natToDec n 0
    rw [hcc] at hp
    simpa using hp
  rw [hcc, goAtoi]
  rw [if_neg (isDigitChar_ne_dash hdig), if_neg (isDigitChar_ne_plus hdig)]
  simp only [atoiCore, List.isEmpty_cons, hparse, Bool.false_eq_true, if_false]
  rw [if_pos (by omega : n ≤ 2 ^ 63 - 1)]

/-- Insertion step of the sorting model. -/
def insertSorted (x : Int) : List Int → List Int
  | [] => [x]
  | y :: ys => if x ≤ y then x :: y :: ys else y :: insertSorted x ys

/-- Model of `sort.Ints`: ascending numeric sort (insertion sort; equal
elements are indistinguishable, so stability is irrelevant). -/
def sortInts (l : List Int) : List Int :=
  l.foldr insertSorted []

theorem insertSorted_of_le (x : Int) (l : List Int) (h : ∀ y ∈ l, x ≤ y) :
    insertSorted x l = x :: l := by
  cases l with
  | nil => rfl
  | cons y ys =>
    rw [insertSorted, if_pos (h y (List.mem_cons_self y ys))]

theorem sortInts_of_pairwise :
    ∀ l : List Int, List.Pairwise (· ≤ ·) l → sortInts l = l := by
  intro l
  induction l with
  | nil => intro _; rfl
  | cons a l ih =>
    intro hp
    rw [List.pairwise_cons] at hp
    show insertSorted a (sortInts l) = a :: l
    rw [ih hp.2, insertSorted_of_le a l hp.1]

/-- The collapse loop of `sanitizeFilename`:
`for strings.Contains(s, "--") { s = strings.ReplaceAll(s, "--", "-") }`. -/
def collapseDashes (s : List Char) : List Char :=
  if containsList ['-', '-'] s = true then
    collapseDashes (replaceAll ['-', '-'] ['-'] s)
  else s
termination_by s.length
decreasing_by
  rename_i hc
  exact length_replaceAll_lt (by simp) hc

theorem collapseDashes_no_pair :
    ∀ s : List Char, containsList ['-', '-'] (collapseDashes s) = false := by
  suffices H : ∀ n, ∀ s : List Char, s.length ≤ n →
      containsList ['-', '-'] (collapseDashes s) = false by
    intro s
    exact H s.length s le_rfl
  intro n
  induction n with
  | zero =>
    intro s hs
    have hnil : s = [] := List.length_eq_zero.mp (Nat.le_zero.mp hs)
    subst hnil
    rw [collapseDashes]
    simp [containsList]
  | succ n ih =>
    intro s hs
    rw [collapseDashes]
    by_cases hc : containsList ['-', '-'] s = true
    · rw [if_pos hc]
      have hlt := @length_replaceAll_lt ['-', '-'] ['-'] (by simp) _ hc
      exact ih _ (by omega)
    · rw [if_neg hc]
      exact Bool.eq_false_iff.mpr hc

theorem mem_collapseDashes {c : Char} :
    ∀ {s : List Char}, c ∈ collapseDashes s → c ∈ s ∨ c = '-' := by
  suffices H : ∀ n, ∀ s : List Char, s.length ≤ n →
      c ∈ collapseDashes s → c ∈ s ∨ c = '-' by
    intro s h
    exact H s.length s le_rfl h
  intro n
  induction n with
  | zero =>
    intro s hs h
    have hnil : s = [] := List.length_eq_zero.mp (Nat.le_zero.mp hs)
    subst hnil
    rw [collapseDashes] at h
    simp [containsList] at h
  | succ n ih =>
    intro s hs h
    rw [collapseDashes] at h
    by_cases hc : containsList ['-', '-'] s = true
    · rw [if_pos hc] at h
      have hlt := @length_replaceAll_lt ['-', '-'] ['-'] (by simp) _ hc
      rcases ih _ (by omega) h with h | h
      · rcases mem_replaceAll (by simp) h with h | h
        · exact Or.inl h
        · simp only [List.mem_singleton] at h
          exact Or.inr h
      · exact Or.inr h
    · rw [if_neg hc] at h
      exact Or.inl h

/-- One element-processing step of `filepath.Clean` (Unix rules): empty and
`.` elements are dropped, `..` pops the stack (or is kept when the path is
relative and there is nothing to pop), anything else is pushed. -/
def cleanStep (rooted : Bool) (stack : List (List Char)) (e : List Char) :
    List (List Char) :=
  if e = [] ∨ e = ['.'] then stack
  else if e = ['.', '.'] then
    match stack with
    | [] => if rooted then [] else [['.', '.']]
    | t :: rest => if t = ['.', '.'] then ['.', '.'] :: t :: rest else rest
  else e :: stack

/-- Reassembly phase of `filepath.Clean`: process the elements and rejoin,
yielding `.` for an empty relative result. -/
def cleanAssemble (rooted : Bool) (elems : List (List Char)) : List Char :=
  if rooted then '/' :: joinSep ['/'] (elems.foldl (cleanStep rooted) []).reverse
  else if joinSep ['/'] (elems.foldl (cleanStep rooted) []).reverse = [] then ['.']
  else joinSep ['/'] (elems.foldl (cleanStep rooted) []).reverse

/-- Model of `filepath.Clean` on Unix: split on `/`, normalise the elements
and rejoin. -/
def filepathClean (s : List Char) : List Char :=
  if s = [] then ['.']
  else cleanAssemble (decide (s.head? = some '/')) (splitOnChar '/' s)

/-- `filepath.Clean` is the identity on separator-free names other than
`""`, `"."` and `".."`. -/
theorem filepathClean_id {s : List Char} (hne : s ≠ []) (hdot : s ≠ ['.'])
    (hdots : s ≠ ['.', '.']) (hsep : ∀ c ∈ s, c ≠ '/') :
    filepathClean s = s := by
  have hrooted : decide (s.head? = some '/') = false := by
    apply decide_eq_false
    obtain ⟨c, cs, hcc⟩ := List.exists_cons_of_ne_nil hne
    subst hcc
    simp only [List.head?_cons, Option.some.injEq]
    exact hsep c (List.mem_cons_self _ _)
  rw [filepathClean, if_neg hne, splitOnChar_nosep '/' s hsep, hrooted]
  simp [cleanAssemble, cleanStep, joinSep, hne, hdot, hdots]

theorem joinSep_suffix (sep : List Char) (e : List Char) :
    ∀ xs : List (List Char), List.IsSuffix e (joinSep sep (xs ++ [e])) := by
  intro xs
  induction xs with
  | nil => simp [joinSep]
  | cons x xs ih =>
    rcases hxe : xs ++ [e] with _ | ⟨y, ys⟩
    · exact absurd hxe (by simp)
    · rw [List.cons_append, hxe, joinSep]
      rw [hxe] at ih
      obtain ⟨t, ht⟩ := ih
      exact ⟨x ++ sep ++ t, by rw [← ht]; simp⟩

/-- `filepath.Clean` keeps a separator-free tail of length at least three
(such as `".mp4"`) as a suffix of the result. -/
theorem filepathClean_suffix (g b : List Char) (hb : ∀ c ∈ b, c ≠ '/')
    (h3 : 3 ≤ b.length) :
    List.IsSuffix b (filepathClean (g ++ b)) := by
  have hbne : b ≠ [] := by
    intro h
    rw [h] at h3
    simp at h3
  have hne : g ++ b ≠ [] := by
    intro h
    rcases List.append_eq_nil.mp h with ⟨-, h2⟩
    exact hbne h2
  rw [filepathClean, if_neg hne]
  obtain ⟨pre, x, hsplit⟩ := splitOnCharAux_append_tail '/' b hb g []
  rw [splitOnChar, hsplit]
  generalize (decide ((g ++ b).head? = some '/')) = rooted
  have he1 : x ++ b ≠ [] := by
    intro h
    rcases List.append_eq_nil.mp h with ⟨-, h2⟩
    exact hbne h2
  have hlen : 3 ≤ (x ++ b).length := by
    simp only [List.length_append]
    omega
  have he2 : x ++ b ≠ ['.'] := by
    intro h
    rw [h] at hlen
    simp at hlen
  have he3 : x ++ b ≠ ['.', '.'] := by
    intro h
    rw [h] at hlen
    simp at hlen
  have hfold : (pre ++ [x ++ b]).foldl (cleanStep rooted) [] =
      (x ++ b) :: List.foldl (cleanStep rooted) [] pre := by
    rw [List.foldl_append]
    simp only [List.foldl_cons, List.foldl_nil]
    simp [cleanStep, he1, he2, he3]
  have hbody : List.IsSuffix b
      (joinSep ['/'] ((pre ++ [x ++ b]).foldl (cleanStep rooted) []).reverse) := by
    rw [hfold, List.reverse_cons]
    obtain ⟨t, ht⟩ := joinSep_suffix ['/'] (x ++ b)
      (List.foldl (cleanStep rooted) [] pre).reverse
    exact ⟨t ++ x, by rw [← ht]; simp⟩
  obtain ⟨t, ht⟩ := hbody
  have hbodyne :
      joinSep ['/'] ((pre ++ [x ++ b]).foldl (cleanStep rooted) []).reverse ≠ [] := by
    intro h
    rw [h] at ht
    rcases List.append_eq_nil.mp ht with ⟨-, h2⟩
    exact hbne h2
  rw [cleanAssemble]
  by_cases hro : rooted = true
  · rw [if_pos hro]
    exact ⟨'/' :: t, by rw [List.cons_append, ht]⟩
  · rw [if_neg hro, if_neg hbodyne]
    exact ⟨t, ht⟩

theorem flatMapAssoc {α β γ : Type} (l : List α) (f : α → List β)
    (g : β → List γ) :
    (l.flatMap f).flatMap g = l.flatMap (fun x => (f x).flatMap g) := by
  induction l with
  | nil => rfl
  | cons a l ih => simp [ih]

theorem replaceAll_single_flatMap (a : Char) (rep : List Char)
    (f : Char → List Char) (s : List Char) :
    replaceAll [a] rep (s.flatMap f) =
      s.flatMap (fun c => replaceAll [a] rep (f c)) := by
  rw [replaceAll_single_eq_flatMap, flatMapAssoc]
  simp only [replaceAll_single_eq_flatMap]

theorem replaceAll_single_map (a d : Char) (s : List Char) :
    replaceAll [a] [d] s = s.map (fun c => if c = a then d else c) := by
  rw [replaceAll_single_eq_flatMap]
  induction s with
  | nil => rfl
  | cons c cs ih =>
    simp only [List.flatMap_cons, List.map_cons, ih]
    by_cases hc : c = a
    · simp [hc]
    · simp [hc]

end GoStr

open GoStr

/-- The nine characters the filename policy treats as illegal
(`/ \ : * ? " < > |`). -/
def badChars : List Char := ['/', '\\', ':', '*', '?', '\"', '<', '>', '|']

/-- Extension-extraction step shared by every revision of `createFilename`:
`strings.Split(mediaType, "/")`, taking `parts[1]` when there are at least
`minMediaTypeParts = 2` parts and falling back to `"mp4"` otherwise. -/
def extensionOf (mediaTypeStr : List Char) : List Char :=
  if (splitOnChar '/' mediaTypeStr).length ≥ 2 then
    (splitOnChar '/' mediaTypeStr).getD 1 []
  else
    ['m', 'p', '4']

namespace file

/-- Go `sanitizeFilename` (packages `file` and `dir`).  The Go code applies
`strings.ReplaceAll` for each entry of a map literal; map iteration order is
unspecified, but no replacement value (`"-"` or `""`) contains a key
character, so the nine single-character rewrites commute and every order
yields the same string.  They are applied here in the order of the map
literal, followed by `strings.TrimSpace` and the `"--"`-collapse loop. -/
def sanitizeFilename (filename : List Char) : List Char :=
  collapseDashes (trimSpace
    (replaceAll ['|'] ['-']
      (replaceAll ['>'] []
        (replaceAll ['<'] []
          (replaceAll ['\"'] []
            (replaceAll ['?'] []
              (replaceAll ['*'] []
                (replaceAll [':'] ['-']
                  (replaceAll ['\\'] ['-']
                    (replaceAll ['/'] ['-'] filename))))))))))

/-- The pointwise character rewrite performed by the replacement map of
`sanitizeFilename` (slash-like characters become `-`, the rest of the
illegal characters are dropped). -/
def sanitizeChar (c : Char) : List Char :=
  if c = '/' ∨ c = '\\' ∨ c = ':' ∨ c = '|' then ['-']
  else if c = '*' ∨ c = '?' ∨ c = '\"' ∨ c = '<' ∨ c = '>' then []
  else [c]

/-- The nine sequential rewrites of `sanitizeFilename` amount to one
pointwise pass. -/
theorem sanitize_stages (s : List Char) :
    replaceAll ['|'] ['-']
      (replaceAll ['>'] []
        (replaceAll ['<'] []
          (replaceAll ['\"'] []
            (replaceAll ['?'] []
              (replaceAll ['*'] []
                (replaceAll [':'] ['-']
                  (replaceAll ['\\'] ['-']
                    (replaceAll ['/'] ['-'] s)))))))) =
      s.flatMap sanitizeChar := by
  simp only [replaceAll_single_eq_flatMap, flatMapAssoc]
  congr 1
  funext c
  by_cases h1 : c = '/'
  · subst h1; simp [sanitizeChar]
  by_cases h2 : c = '\\'
  · subst h2; simp [sanitizeChar]
  by_cases h3 : c = ':'
  · subst h3; simp [sanitizeChar]
  by_cases h4 : c = '*'
  · subst h4; simp [sanitizeChar]
  by_cases h5 : c = '?'
  · subst h5; simp [sanitizeChar]
  by_cases h6 : c = '\"'
  · subst h6; simp [sanitizeChar]
  by_cases h7 : c = '<'
  · subst h7; simp [sanitizeChar]
  by_cases h8 : c = '>'
  · subst h8; simp [sanitizeChar]
  by_cases h9 : c = '|'
  · subst h9; simp [sanitizeChar]
  simp [sanitizeChar, h1, h2, h3, h4, h5, h6, h7, h8, h9]

theorem sanitize_notMem_bad (t : List Char) {b : Char} (hb : b ∈ badChars) :
    b ∉ sanitizeFilename t := by
  have hbd : b ≠ '-' := (by decide : ∀ x ∈ badChars, x ≠ '-') b hb
  intro hmem
  rw [sanitizeFilename] at hmem
  rcases mem_collapseDashes hmem with h | h
  · have h2 := mem_trimSpace h
    rw [sanitize_stages, List.mem_flatMap] at h2
    obtain ⟨c, hc, hbc⟩ := h2
    rw [sanitizeChar] at hbc
    split_ifs at hbc with hg1 hg2
    · simp only [List.mem_singleton] at hbc
      exact hbd hbc
    · simp at hbc
    · simp only [List.mem_singleton] at hbc
      subst hbc
      simp only [badChars, List.mem_cons, List.not_mem_nil, or_false] at hb
      tauto
  · exact hbd h

theorem sanitize_no_pair (t : List Char) :
    containsList ['-', '-'] (sanitizeFilename t) = false :=
  collapseDashes_no_pair _

/-- Go `createFilename(title, mediaType, episodeNr, useEpisode)` of the
`file`/`dir` helper packages: extension extraction with `"mp4"` fallback,
sanitised and underscored title, optional episode prefix, `filepath.Clean`. -/
def createFilename (title mediaTypeStr episodeNr : List Char)
    (useEpisode : Bool) : List Char :=
  filepathClean
    (if useEpisode ∧ episodeNr ≠ [] then
      episodeNr ++ '_' :: replaceAll [' '] ['_'] (sanitizeFilename title) ++
        '.' :: extensionOf mediaTypeStr
    else
      replaceAll [' '] ['_'] (sanitizeFilename title) ++
        '.' :: extensionOf mediaTypeStr)

end file

namespace media

/-- Go `createFilename(title, mediaType)` of package `media`
(internal/download/media.go): underscored (not otherwise sanitised) title
plus extension with `"mp4"` fallback, then `filepath.Clean`. -/
def createFilename (title mediaTypeStr : List Char) : List Char :=
  filepathClean
    (replaceAll [' '] ['_'] title ++ '.' :: extensionOf mediaTypeStr)

end media

theorem no_pair_underscore {s : List Char}
    (h : containsList ['-', '-'] s = false) :
    containsList ['-', '-'] (replaceAll [' '] ['_'] s) = false := by
  rw [replaceAll_single_map]
  rw [containsList_pair_eq_false_iff] at h ⊢
  rw [List.chain'_map]
  refine h.imp ?_
  rintro a b hab ⟨ha, hb⟩
  apply hab
  constructor
  · by_cases haa : a = ' '
    · rw [if_pos haa] at ha
      exact absurd ha.symm (by decide)
    · rwa [if_neg haa] at ha
  · by_cases hbb : b = ' '
    · rw [if_pos hbb] at hb
      exact absurd hb.symm (by decide)
    · rwa [if_neg hbb] at hb

theorem no_pair_append {a bb : List Char}
    (ha : containsList ['-', '-'] a = false)
    (hb : containsList ['-', '-'] bb = false)
    (hh : ∀ y ∈ bb.head?, y ≠ '-') :
    containsList ['-', '-'] (a ++ bb) = false := by
  rw [containsList_pair_eq_false_iff] at ha hb ⊢
  rw [List.chain'_append]
  refine ⟨ha, hb, ?_⟩
  rintro x hx y hy ⟨-, hy2⟩
  exact hh y hy hy2

theorem notMem_underscore {s : List Char} {b : Char} (hb : b ≠ '_')
    (h : b ∉ s) : b ∉ replaceAll [' '] ['_'] s := by
  intro hmem
  rcases mem_replaceAll (by simp) hmem with h2 | h2
  · exact h h2
  · simp only [List.mem_singleton] at h2
    exact hb h2

namespace download

/-- The media kinds distinguished by `extractIDAndType` (Go `mediaType`). -/
inductive mediaType where
  | unknownType
  | videoType
  | channelType
deriving DecidableEq

/-- The only classification error (`errInvalidURL`). -/
inductive UrlErr where
  | invalidURL
deriving DecidableEq

/-- Go constant `baseURL`. -/
def baseURL : List Char := "https://tube.switch.ch/".data

/-- Go constant `videoPrefix` (`"videos/"`; renamed here). -/
def videoSeg : List Char := "videos/".data

/-- Go constant `channelPrefix` (`"channels/"`; renamed here). -/
def channelSeg : List Char := "channels/".data

/-- Go `extractIDAndType` (internal/download/media.go): trim the input,
pass bare identifiers through as `unknown`, strip the base URL and
classify by path segment, and flag recognised-host URLs with an unknown
segment as `errInvalidURL`. -/
def extractIDAndType (input : List Char) :
    List Char × mediaType × Option UrlErr :=
  let input' := trimSpace input
  if startsWith baseURL input' = false then (input', .unknownType, none)
  else
    if startsWith videoSeg (trimLeading baseURL input') then
      (trimLeading videoSeg (trimLeading baseURL input'), .videoType, none)
    else if startsWith channelSeg (trimLeading baseURL input') then
      (trimLeading channelSeg (trimLeading baseURL input'), .channelType, none)
    else (trimLeading baseURL input', .unknownType, some .invalidURL)

/-- The seven selection-grammar error kinds of the parser, each wrapping the
offending token or values exactly as the Go `fmt.Errorf` calls do. -/
inductive SelErr where
  | invalidRangeFormat (part : List Char)
  | invalidStartNumber (tok : List Char)
  | invalidEndNumber (tok : List Char)
  | invalidRange (start stop maxVideos : Int)
  | invalidNumber (part : List Char)
  | numberOutOfRange (num maxVideos : Int)
  | noValidSelections
deriving DecidableEq

/-- The `for i := start; i <= end; i++` loop of `handleRangePart`: append
each unseen zero-based index and mark it seen. -/
def addRange (i stop : Int) (indices seen : List Int) : List Int × List Int :=
  if i ≤ stop then
    if seen.contains (i - 1) then addRange (i + 1) stop indices seen
    else addRange (i + 1) stop (indices ++ [i - 1]) (seen ++ [i - 1])
  else (indices, seen)
termination_by (stop + 1 - i).toNat
decreasing_by
  · rename_i h _
    omega
  · rename_i h _
    omega

/-- Go `handleRangePart`: split on `-`, require exactly two parts, parse
both endpoints, check `start ≥ 1 ∧ end ≤ maxVideos ∧ start ≤ end`, then
expand. -/
def handleRangePart (part : List Char) (maxVideos : Int)
    (indices seen : List Int) : Except SelErr (List Int × List Int) :=
  if (splitOnChar '-' part).length ≠ 2 then .error (.invalidRangeFormat part)
  else
    match goAtoi (trimSpace ((splitOnChar '-' part).getD 0 [])) with
    | none => .error (.invalidStartNumber ((splitOnChar '-' part).getD 0 []))
    | some start =>
      match goAtoi (trimSpace ((splitOnChar '-' part).getD 1 [])) with
      | none => .error (.invalidEndNumber ((splitOnChar '-' part).getD 1 []))
      | some stop =>
        if start < 1 ∨ stop > maxVideos ∨ start > stop then
          .error (.invalidRange start stop maxVideos)
        else .ok (addRange start stop indices seen)

/-- Go `handleSinglePart`: parse one 1-based number, bounds-check it and
record its zero-based index if unseen. -/
def handleSinglePart (part : List Char) (maxVideos : Int)
    (indices seen : List Int) : Except SelErr (List Int × List Int) :=
  match goAtoi part with
  | none => .error (.invalidNumber part)
  | some num =>
    if num < 1 ∨ num > maxVideos then .error (.numberOutOfRange num maxVideos)
    else if seen.contains (num - 1) then .ok (indices, seen)
    else .ok (indices ++ [num - 1], seen ++ [num - 1])

/-- The token loop of `parseSelection`: skip empty tokens, dispatch tokens
containing `-` to the range handler and the rest to the single handler,
returning the first error. -/
def selLoop (maxVideos : Int) :
    List (List Char) → List Int → List Int →
      Except SelErr (List Int × List Int)
  | [], indices, seen => .ok (indices, seen)
  | part :: parts, indices, seen =>
    if trimSpace part = [] then selLoop maxVideos parts indices seen
    else if containsList ['-'] (trimSpace part) then
      match handleRangePart (trimSpace part) maxVideos indices seen with
      | .error e => .error e
      | .ok (indices', seen') => selLoop maxVideos parts indices' seen'
    else
      match handleSinglePart (trimSpace part) maxVideos indices seen with
      | .error e => .error e
      | .ok (indices', seen') => selLoop maxVideos parts indices' seen'

/-- Go `parseSelection` (media.go / channel.go / selector.go, identical in
all revisions): split the input on commas and spaces, process the tokens,
fail with `errNoValidSelectionsFound` on an empty result and sort the
indices. -/
def parseSelection (input : List Char) (maxVideos : Int) :
    Except SelErr (List Int) :=
  match selLoop maxVideos (fieldsFunc (fun c => c = ',' || c = ' ') input)
      [] [] with
  | .error e => .error e
  | .ok (indices, _) =>
    if indices = [] then .error .noValidSelections
    else .ok (sortInts indices)

end download

namespace download

/-- The two download paths the dispatcher can invoke. -/
inductive Attempt where
  | videoAtt
  | channelAtt
deriving DecidableEq

/-- The wrapping sentinels of `Download` (`errFailedToExtractType`,
`errFailedToGetToken`, `errFailedToDownloadVideo`,
`errFailedToDownloadChannel`). -/
inductive DownloadErr where
  | extractType
  | getToken
  | dlVideo
  | dlChannel
deriving DecidableEq

/-- Environment of the dispatcher: outcomes of `token.Get` and of the two
effectful download paths (abstracted over identifier and token, as the
dispatcher only observes success or failure). -/
structure DispatchEnv where
  tokenGet : Except Unit (List Char)
  videoRun : List Char → List Char → Except Unit Unit
  channelRun : List Char → List Char → Except Unit Unit

/-- Go `Download` (internal/download/media.go and the config-based
revision): classify, fetch the token, then `switch` on the kind.  The
`unknown` case tries the video path and uses Go `fallthrough` into the
channel case when it errs.  The result is paired with the ordered list of
paths attempted (the observable calls to `downloadVideo` /
`downloadChannel`).  The Go `default` branch (`errCouldNotDetermineType`)
is unreachable because the enumeration is exhaustive. -/
def Download (env : DispatchEnv) (mediaRef : List Char) :
    Except DownloadErr Unit × List Attempt :=
  match extractIDAndType mediaRef with
  | (_, _, some _) => (.error .extractType, [])
  | (id, dt, none) =>
    match env.tokenGet with
    | .error _ => (.error .getToken, [])
    | .ok tok =>
      match dt with
      | .videoType =>
        match env.videoRun id tok with
        | .error _ => (.error .dlVideo, [.videoAtt])
        | .ok _ => (.ok (), [.videoAtt])
      | .unknownType =>
        match env.videoRun id tok with
        | .ok _ => (.ok (), [.videoAtt])
        | .error _ =>
          match env.channelRun id tok with
          | .error _ => (.error .dlChannel, [.videoAtt, .channelAtt])
          | .ok _ => (.ok (), [.videoAtt, .channelAtt])
      | .channelType =>
        match env.channelRun id tok with
        | .error _ => (.error .dlChannel, [.channelAtt])
        | .ok _ => (.ok (), [.channelAtt])

/-- Outcome classification of one `src.Read(buffer)` call: data with no
error, data with `io.EOF`, or data with another error. -/
inductive ReadOutcome where
  | readOk
  | readEOF
  | readErr
deriving DecidableEq

/-- One read event of a byte source: the returned chunk (possibly empty)
together with the returned error value. -/
structure ReadEvent where
  chunk : List Nat
  outcome : ReadOutcome
deriving DecidableEq

/-- The two error kinds of `copyWithProgress`
(`errFailedWriteToFile`, `errFailedReadData`). -/
inductive CopyErr where
  | failedWrite
  | failedRead
deriving DecidableEq

/-- State of the copy loop: bytes written to the sink, the running `written`
counter, the `written` values passed to each `ShowProgress` call, and the
number of `dst.Write` calls so far (used by the write-failure oracle). -/
structure CopyState where
  sink : List Nat
  written : Int
  renders : List Int
  widx : Nat
deriving DecidableEq

/-- The read loop of Go `copyWithProgress` (media.go / video.go, identical):
write any data before looking at the error, render progress after every
written chunk, `break` on `io.EOF`, fail on other read errors, and fail
immediately when a write errs (`wfail` tells which write call fails). -/
def copyLoop (wfail : Nat → Bool) :
    List ReadEvent → CopyState → Except CopyErr CopyState
  | [], st => .ok st
  | ev :: evs, st =>
    if ev.chunk.isEmpty then
      match ev.outcome with
      | .readEOF => .ok st
      | .readErr => .error .failedRead
      | .readOk => copyLoop wfail evs st
    else
      if wfail st.widx then .error .failedWrite
      else
        match ev.outcome with
        | .readEOF =>
          .ok ⟨st.sink ++ ev.chunk, st.written + ev.chunk.length,
            st.renders ++ [st.written + ev.chunk.length], st.widx + 1⟩
        | .readErr => .error .failedRead
        | .readOk =>
          copyLoop wfail evs
            ⟨st.sink ++ ev.chunk, st.written + ev.chunk.length,
              st.renders ++ [st.written + ev.chunk.length], st.widx + 1⟩

/-- Go `copyWithProgress`: run the read loop from an empty state and, on
success, render once more with the final tally. -/
def copyWithProgress (wfail : Nat → Bool) (events : List ReadEvent) :
    Except CopyErr CopyState :=
  match copyLoop wfail events ⟨[], 0, [], 0⟩ with
  | .error e => .error e
  | .ok st => .ok ⟨st.sink, st.written, st.renders ++ [st.written], st.widx⟩

/-- Modelled from the spec: the plain straight-through copy that
`copyWithProgress` must refine — the concatenation, in order, of every
byte produced by the source up to (and including) the read that reports
end-of-stream or an error. -/
def sourceBytes : List ReadEvent → List Nat
  | [] => []
  | ev :: evs =>
    ev.chunk ++ (match ev.outcome with
      | .readOk => sourceBytes evs
      | _ => [])

end download

namespace media

/-- Progress-bar display constants of progressbar.go. -/
def progressBarLength : Int := 50

/-- Terminal display constant `terminalWidthPadding`. -/
def terminalWidthPadding : Int := 30

/-- Terminal display constant `minBarLength`. -/
def minBarLength : Int := 10

/-- Go `calculateBarLength`: clamp the default bar length to the terminal
width. -/
def calculateBarLength (termWidth : Int) : Int :=
  max (min progressBarLength (termWidth - terminalWidthPadding)) minBarLength

/-- Go float64→int conversion for in-range values: truncation toward
zero. -/
def intTrunc (q : ℚ) : Int :=
  if q < 0 then -Int.floor (-q) else Int.floor q

/-- Model of `strings.Repeat c n`: panics (modelled as `.error ()`) on a
negative count. -/
def goRepeat (c : Char) (n : Int) : Except Unit (List Char) :=
  if n < 0 then .error ()
  else .ok (List.replicate n.toNat c)

/-- The `percent` computation of `ShowProgress`
(`float64(written) / float64(total) * percentageMultiplier`), modelled in
exact rational arithmetic.  For the integral inputs used in the theorems
below every intermediate float64 value is exactly representable, so the
model is exact; IEEE division by zero (`total = 0`) is outside the model. -/
def showProgressPercent (written total : Int) : ℚ :=
  (written : ℚ) / (total : ℚ) * 100

/-- Go `renderProgressBar` (and the identical inline bar construction of the
earlier `ShowProgress` revision):
`filled := int(float64(barLength) * percent / percentageMultiplier)`
followed by `strings.Repeat("#", filled) + strings.Repeat("-", barLength-filled)`.
An `.error ()` result is a Go panic. -/
def renderProgressBar (percent : ℚ) (barLength : Int) :
    Except Unit (List Char) :=
  Except.bind (goRepeat '#' (intTrunc ((barLength : ℚ) * percent / 100)))
    (fun hash =>
      Except.bind
        (goRepeat '-' (barLength - intTrunc ((barLength : ℚ) * percent / 100)))
        (fun dash => Except.ok (hash ++ dash)))

end media

namespace download

/-- Go `models.Video`. -/
structure Video where
  ID : List Char
  Title : List Char
  Episode : List Char
deriving DecidableEq

instance : Inhabited Video := ⟨⟨[], [], []⟩⟩

/-- Go `videoVariant`. -/
structure videoVariant where
  Path : List Char
  MediaType : List Char
deriving DecidableEq

instance : Inhabited videoVariant := ⟨⟨[], []⟩⟩

/-- The three printed pieces of the batch summary
(`"%d/%d videos successful"` plus the failed-titles list). -/
structure Summary where
  successful : Int
  selected : Int
  failedTitles : List (List Char)
deriving DecidableEq

/-- Environment of the channel orchestrator: outcomes of the collaborators
invoked per video (`videoDownloader.getVariants`,
`dir.OverwriteVideoIfExists`, `dir.CreateFilename`,
`videoDownloader.downloadVideo`). -/
structure ChannelEnv where
  getVariants : List Char → Except Unit (List videoVariant)
  overwriteIfExists : List Char → Bool
  createFilename : List Char → List Char → List Char → List Char
  downloadVideo : List Char → Except Unit Unit

/-- Go `channelDownloader.prepareDownloads` (pre-flight pass): per selected
index, fetch the variants; on error or an empty variant list record the
title as failed and exclude the video, otherwise keep the index unless the
skip/overwrite policy drops it.  Returns `(toDownload, failed)`. -/
def prepareDownloads (env : ChannelEnv) (videos : List Video)
    (indices : List Nat) : List Nat × List (List Char) :=
  indices.foldl
    (fun acc idx =>
      let v := videos.getD idx default
      match env.getVariants v.ID with
      | .error _ => (acc.1, acc.2 ++ [v.Title])
      | .ok variants =>
        if variants.length = 0 then (acc.1, acc.2 ++ [v.Title])
        else
          if env.overwriteIfExists
              (env.createFilename v.Title (variants.getD 0 default).MediaType
                v.Episode) then
            acc
          else (acc.1 ++ [idx], acc.2))
    ([], [])

/-- Go `channelDownloader.processDownloads` (download pass): download every
remaining video in order; errors are recorded by title and never abort the
loop.  The second component records the IDs downloaded successfully (the
observable successful `downloadVideo` calls). -/
def processDownloads (env : ChannelEnv) (videos : List Video)
    (indices : List Nat) : List (List Char) × List (List Char) :=
  indices.foldl
    (fun acc idx =>
      let v := videos.getD idx default
      match env.downloadVideo v.ID with
      | .error _ => (acc.1 ++ [v.Title], acc.2)
      | .ok _ => (acc.1, acc.2 ++ [v.ID]))
    ([], [])

/-- Go `channelDownloader.printResults`: prints
`downloadCount - len(failed)` out of `selectedCount` plus the failed
titles. -/
def printResults (downloadCount selectedCount : Int)
    (failed : List (List Char)) : Summary :=
  ⟨downloadCount - failed.length, selectedCount, failed⟩

/-- Go `channelDownloader.downloadSelectedVideos` (the pre-flight revision,
progressbar.go third revision): pre-flight pass, download pass over the
survivors, summary over the concatenated failure list.  Also returns the
IDs successfully downloaded. -/
def channelDownloadSelectedVideos (env : ChannelEnv) (videos : List Video)
    (selectedIndices : List Nat) : Summary × List (List Char) :=
  match prepareDownloads env videos selectedIndices with
  | (toDownload, failed1) =>
    match
      (if toDownload.length > 0 then processDownloads env videos toDownload
       else ([], [])) with
    | (failed2, downloaded) =>
      (printResults toDownload.length selectedIndices.length
        (failed1 ++ failed2), downloaded)

/-- Go `downloadSelectedVideos` (the earlier revision, channel.go): one
pass that downloads each selected video, records failures by title, and
reports `len(selected) - len(failed)` out of `len(selected)`.  Also
returns the IDs successfully downloaded. -/
def legacyDownloadSelectedVideos (dl : List Char → Except Unit Unit)
    (videos : List Video) (selectedIndices : List Nat) :
    Summary × List (List Char) :=
  match
    selectedIndices.foldl
      (fun acc idx =>
        let v := videos.getD idx default
        match dl v.ID with
        | .error _ => (acc.1 ++ [v.Title], acc.2)
        | .ok _ => (acc.1, acc.2 ++ [v.ID]))
      ([], []) with
  | (failed, downloaded) =>
    (⟨(selectedIndices.length : Int) - failed.length,
      selectedIndices.length, failed⟩, downloaded)

end download

namespace download

/-- Proof-side description of the indices the range loop appends:
`[i-1, i, ..., i+k-2]`. -/
def rangeIdx (i : Int) : Nat → List Int
  | 0 => []
  | k + 1 => (i - 1) :: rangeIdx (i + 1) k

theorem rangeIdx_mem : ∀ (k : Nat) (i x : Int),
    x ∈ rangeIdx i k ↔ (i - 1 ≤ x ∧ x < i - 1 + k) := by
  intro k
  induction k with
  | zero =>
    intro i x
    simp only [rangeIdx, List.not_mem_nil, false_iff]
    omega
  | succ k ih =>
    intro i x
    simp only [rangeIdx, List.mem_cons, ih]
    push_cast
    omega

theorem rangeIdx_pairwise : ∀ (k : Nat) (i : Int),
    List.Pairwise (· < ·) (rangeIdx i k) := by
  intro k
  induction k with
  | zero => intro i; simp [rangeIdx]
  | succ k ih =>
    intro i
    rw [rangeIdx, List.pairwise_cons]
    refine ⟨?_, ih (i + 1)⟩
    intro x hx
    rw [rangeIdx_mem] at hx
    omega

theorem rangeIdx_ne_nil {k : Nat} (hk : 0 < k) (i : Int) :
    rangeIdx i k ≠ [] := by
  cases k with
  | zero => omega
  | succ k => simp [rangeIdx]

/-- The range loop appends exactly `rangeIdx` when nothing in `seen` can
collide (all seen indices lie below the range). -/
theorem addRange_spec : ∀ (k : Nat) (i stop : Int),
    (stop + 1 - i).toNat = k →
    ∀ (indices seen : List Int), (∀ x ∈ seen, x < i - 1) →
      addRange i stop indices seen =
        (indices ++ rangeIdx i k, seen ++ rangeIdx i k) := by
  intro k
  induction k with
  | zero =>
    intro i stop hk indices seen hseen
    rw [addRange, if_neg (by omega)]
    simp [rangeIdx]
  | succ k ih =>
    intro i stop hk indices seen hseen
    have hle : i ≤ stop := by omega
    have hnc : seen.contains (i - 1) = false := by
      simpa using fun hmem => absurd (hseen _ hmem) (by omega)
    rw [addRange, if_pos hle]
    simp only [hnc, Bool.false_eq_true, if_false]
    rw [ih (i + 1) stop (by omega) (indices ++ [i - 1]) (seen ++ [i - 1]) ?_]
    · rw [rangeIdx]
      simp
    · intro x hx
      rcases List.mem_append.mp hx with hx | hx
      · have := hseen _ hx
        omega
      · simp only [List.mem_singleton] at hx
        omega

/-- Character facts about decimal tokens. -/
theorem natToDec_token_facts (n : Nat) :
    (∀ c ∈ natToDec n, (c = ',' || c = ' ') = false) ∧
    (∀ c ∈ natToDec n, isGoSpace c = false) ∧
    (∀ c ∈ natToDec n, c ≠ '-') := by
  refine ⟨?_, ?_, ?_⟩
  · intro c hc
    have hd := natToDec_digits n c hc
    simp [isDigitChar_ne_comma hd, isDigitChar_ne_space hd]
  · intro c hc
    exact isDigitChar_not_goSpace (natToDec_digits n c hc)
  · intro c hc
    exact isDigitChar_ne_dash (natToDec_digits n c hc)

/-- `parseSelection` on a single separator-free, space-free token reduces
to the corresponding handler. -/
theorem parseSelection_one_token (tok : List Char) (N : Int)
    (hne : tok ≠ [])
    (hsep : ∀ c ∈ tok, (c = ',' || c = ' ') = false)
    (hsp : ∀ c ∈ tok, isGoSpace c = false) :
    parseSelection tok N =
      match (if containsList ['-'] tok = true
             then handleRangePart tok N [] []
             else handleSinglePart tok N [] []) with
      | .error e => .error e
      | .ok (indices, _) =>
        if indices = [] then .error .noValidSelections
        else .ok (sortInts indices) := by
  have htr : trimSpace tok = tok := trimSpace_eq_self hsp
  rw [parseSelection, fieldsFunc_nosep _ _ hsep hne, selLoop, htr,
    if_neg hne]
  by_cases hdash : containsList ['-'] tok = true
  · rw [if_pos hdash]
    cases hh : handleRangePart tok N [] [] with
    | error e => simp [hdash]
    | ok p =>
      obtain ⟨ind, sn⟩ := p
      simp [selLoop, hdash]
  · rw [if_neg hdash]
    cases hh : handleSinglePart tok N [] [] with
    | error e => simp [hdash]
    | ok p =>
      obtain ⟨ind, sn⟩ := p
      simp [selLoop, hdash]

end download

namespace download

/-- Evaluation of the range handler on a well-formed decimal range token
with 64-bit-representable endpoints. -/
theorem handleRangePart_eval (n m : Nat) (N : Int)
    (hn : n < 2 ^ 63) (hm : m < 2 ^ 63) :
    handleRangePart (natToDec n ++ '-' :: natToDec m) N [] [] =
      (if (n : Int) < 1 ∨ (m : Int) > N ∨ (n : Int) > (m : Int) then
        .error (.invalidRange (n : Int) (m : Int) N)
      else .ok (addRange (n : Int) (m : Int) [] [])) := by
  have hsplit : splitOnChar '-' (natToDec n ++ '-' :: natToDec m) =
      [natToDec n, natToDec m] :=
    splitOnChar_pair '-' _ _ (natToDec_token_facts n).2.2
      (natToDec_token_facts m).2.2
  rw [handleRangePart]
  rw [if_neg (by rw [hsplit]; simp)]
  simp only [hsplit, List.getD_cons_zero, List.getD_cons_succ,
    trimSpace_eq_self (natToDec_token_facts n).2.1,
    trimSpace_eq_self (natToDec_token_facts m).2.1,
    goAtoi_natToDec hn, goAtoi_natToDec hm]

/-- Shared token-shape facts for a decimal range token. -/
theorem rangeToken_facts (n m : Nat) :
    (natToDec n ++ '-' :: natToDec m ≠ []) ∧
    (∀ c ∈ natToDec n ++ '-' :: natToDec m, (c = ',' || c = ' ') = false) ∧
    (∀ c ∈ natToDec n ++ '-' :: natToDec m, isGoSpace c = false) ∧
    containsList ['-'] (natToDec n ++ '-' :: natToDec m) = true := by
  refine ⟨by simp, ?_, ?_, ?_⟩
  · intro c hc
    rcases List.mem_append.mp hc with h | h
    · exact (natToDec_token_facts n).1 c h
    · rcases List.mem_cons.mp h with rfl | h
      · decide
      · exact (natToDec_token_facts m).1 c h
  · intro c hc
    rcases List.mem_append.mp hc with h | h
    · exact (natToDec_token_facts n).2.1 c h
    · rcases List.mem_cons.mp h with rfl | h
      · decide
      · exact (natToDec_token_facts m).2.1 c h
  · rw [containsList_single]
    simp

end download

namespace download

/-- The three-video channel-batch scenario: video #2's variant fetch fails,
every other collaborator call succeeds, and no destination file exists
(the skip/overwrite policy never drops a video). -/
def scenarioVideos : List Video :=
  [⟨"id1".data, "t1".data, []⟩, ⟨"id2".data, "t2".data, []⟩,
   ⟨"id3".data, "t3".data, []⟩]

/-- Collaborator outcomes for the scenario. -/
def scenarioEnv : ChannelEnv :=
  ⟨fun id => if id = "id2".data then .error ()
    else .ok [⟨"path".data, "video/mp4".data⟩],
   fun _ => false,
   fun t _ _ => t,
   fun _ => .ok ()⟩

/-- Per-video outcomes of the scenario for the earlier one-pass revision. -/
def scenarioDl : List Char → Except Unit Unit :=
  fun id => if id = "id2".data then .error () else .ok ()

end download

section ClaimC5

/-- C5: the identifier classifier, after trimming whitespace, returns
`(input, Unknown, nil)` when the input does not start with the API base
URL; `(remainder, Video, nil)` for base URL + video path segment;
`(remainder, Channel, nil)` for base URL + channel path segment; and
`(remainder, Unknown, ErrInvalidURL)` when the base URL matches but the
path segment is unrecognized. -/
theorem extractIDAndType_classifies (s : List Char) :
    (startsWith download.baseURL (trimSpace s) = false →
      download.extractIDAndType s =
        (trimSpace s, .unknownType, none)) ∧
    (∀ r, trimSpace s = download.baseURL ++ download.videoSeg ++ r →
      download.extractIDAndType s = (r, .videoType, none)) ∧
    (∀ r, trimSpace s = download.baseURL ++ download.channelSeg ++ r →
      download.extractIDAndType s = (r, .channelType, none)) ∧
    (∀ r, trimSpace s = download.baseURL ++ r →
      startsWith download.videoSeg r = false →
      startsWith download.channelSeg r = false →
      download.extractIDAndType s =
        (r, .unknownType, some .invalidURL)) := by
  refine ⟨?_, ?_, ?_, ?_⟩
  · intro h
    simp [download.extractIDAndType, h]
  · intro r hr
    rw [List.append_assoc] at hr
    have hvid : startsWith download.videoSeg
        (download.channelSeg ++ r) = false := rfl
    simp [download.extractIDAndType, hr, trimLeading_append,
      startsWith_append]
  · intro r hr
    rw [List.append_assoc] at hr
    have hvid : startsWith download.videoSeg
        (download.channelSeg ++ r) = false := rfl
    simp [download.extractIDAndType, hr, trimLeading_append,
      startsWith_append, hvid]
  · intro r hr hv hc
    simp [download.extractIDAndType, hr, trimLeading_append,
      startsWith_append, hv, hc]

/-- Witness for C5 at the concrete inputs of the spec's examples. -/
theorem extractIDAndType_classifies_witness :
    download.extractIDAndType "123".data =
      ("123".data, .unknownType, none) ∧
    download.extractIDAndType "https://tube.switch.ch/videos/123".data =
      ("123".data, .videoType, none) ∧
    download.extractIDAndType "https://tube.switch.ch/channels/abc".data =
      ("abc".data, .channelType, none) ∧
    download.extractIDAndType "https://tube.switch.ch/nonsense/123".data =
      ("nonsense/123".data, .unknownType, some .invalidURL) := by
  refine ⟨?_, ?_, ?_, ?_⟩
  · exact (extractIDAndType_classifies "123".data).1 (by decide)
  · exact (extractIDAndType_classifies
      "https://tube.switch.ch/videos/123".data).2.1 "123".data (by decide)
  · exact (extractIDAndType_classifies
      "https://tube.switch.ch/channels/abc".data).2.2.1 "abc".data (by decide)
  · exact (extractIDAndType_classifies
      "https://tube.switch.ch/nonsense/123".data).2.2.2 "nonsense/123".data
      (by decide) (by decide) (by decide)

end ClaimC5

section ClaimC10

/-- C10: when the variant's media type does not split into at least two
`/`-separated parts, the computed filename (in both the `file`/`dir`
helper revision and the media.go revision of `createFilename`) ends in the
fallback extension `".mp4"` — it neither fails nor produces an
extensionless name. -/
theorem createFilename_mp4_fallback (title mt ep : List Char) (useEp : Bool)
    (h : (splitOnChar '/' mt).length < 2) :
    List.IsSuffix ".mp4".data (file.createFilename title mt ep useEp) ∧
    List.IsSuffix ".mp4".data (media.createFilename title mt) := by
  have hext : extensionOf mt = ['m', 'p', '4'] := by
    rw [extensionOf, if_neg (by omega)]
  have hdot : (".mp4".data : List Char) = '.' :: ['m', 'p', '4'] := rfl
  constructor
  · rw [file.createFilename, hext, hdot]
    by_cases hcase : useEp = true ∧ ep ≠ []
    · rw [if_pos hcase]
      have hshape :
          ep ++ '_' :: replaceAll [' '] ['_'] (file.sanitizeFilename title) ++
              '.' :: ['m', 'p', '4'] =
            (ep ++ '_' :: replaceAll [' '] ['_']
                (file.sanitizeFilename title)) ++ ('.' :: ['m', 'p', '4']) := by
        simp
      rw [hshape]
      exact filepathClean_suffix _ _ (by decide) (by decide)
    · rw [if_neg hcase]
      exact filepathClean_suffix _ _ (by decide) (by decide)
  · rw [media.createFilename, hext, hdot]
    exact filepathClean_suffix _ _ (by decide) (by decide)

/-- Witness for C10 at a slash-free media type. -/
theorem createFilename_mp4_fallback_witness :
    (splitOnChar '/' "mp4video".data).length < 2 ∧
    List.IsSuffix ".mp4".data
      (file.createFilename "Lecture 1".data "mp4video".data "3".data true) ∧
    List.IsSuffix ".mp4".data
      (media.createFilename "Lecture 1".data "mp4video".data) := by
  refine ⟨by decide, ?_⟩
  exact createFilename_mp4_fallback "Lecture 1".data "mp4video".data
    "3".data true (by decide)

end ClaimC10

section ClaimC2

/-- C2 (divergence witness): the progress renderer *does* raise.  With
`total = -1` (the `resp.ContentLength` value for an unknown content
length), `written = 1` and an 80-column terminal, `percent = -100`,
`filled = -50`, and `strings.Repeat("#", -50)` panics
("strings: negative Repeat count") — modelled as `.error ()`.  Every
float64 value involved (`1 / -1 * 100 = -100`, `50 * -100 / 100 = -50`) is exactly
representable, so the rational model is exact here. -/
theorem renderProgressBar_total_neg_one_panics :
    media.renderProgressBar (media.showProgressPercent 1 (-1))
      (media.calculateBarLength 80) = .error () := by
  have hp : media.showProgressPercent 1 (-1) = -100 := by
    rw [media.showProgressPercent]
    norm_num
  have hb : media.calculateBarLength 80 = 50 := by
    rw [media.calculateBarLength, media.progressBarLength,
      media.terminalWidthPadding, media.minBarLength]
    simp [max_def, min_def]
  have hfill : media.intTrunc (((50 : Int) : ℚ) * (-100) / 100) = -50 := by
    have hq : (((50 : Int) : ℚ) * (-100) / 100) = -50 := by norm_num
    rw [hq, media.intTrunc, if_pos (by norm_num : (-50 : ℚ) < 0)]
    norm_num
  rw [hp, hb, media.renderProgressBar, hfill, media.goRepeat,
    if_pos (by norm_num : (-50 : Int) < 0)]
  rfl

end ClaimC2

section ClaimC7

/-- C7: a zero-length read is a loop continuation (not an error); on every
successful return one final render is performed with the final byte tally;
and the source yielding exactly one zero-length read followed by EOF
completes successfully with `written = 0`. -/
theorem copyWithProgress_zero_read (wfail : Nat → Bool) :
    (∀ (evs : List download.ReadEvent) (st : download.CopyState),
      download.copyLoop wfail (⟨[], .readOk⟩ :: evs) st =
        download.copyLoop wfail evs st) ∧
    (∀ (events : List download.ReadEvent) (out : download.CopyState),
      download.copyWithProgress wfail events = .ok out →
        out.renders.getLast? = some out.written) ∧
    (download.copyWithProgress wfail [⟨[], .readOk⟩, ⟨[], .readEOF⟩] =
      .ok ⟨[], 0, [0], 0⟩ ∧
      (0 : Int) = 0) := by
  refine ⟨?_, ?_, ?_, rfl⟩
  · intro evs st
    rfl
  · intro events out h
    rw [download.copyWithProgress] at h
    cases hloop : download.copyLoop wfail events ⟨[], 0, [], 0⟩ with
    | error e =>
      rw [hloop] at h
      exact absurd h (by simp)
    | ok st =>
      rw [hloop] at h
      simp only [Except.ok.injEq] at h
      subst h
      simp
  · rfl

end ClaimC7

/-- Witness for C7: the hypothesis of the final-render conjunct discharged
at the concrete zero-read source. -/
theorem copyWithProgress_zero_read_witness :
    (download.copyWithProgress (fun _ => false)
        [⟨[], .readOk⟩, ⟨[], .readEOF⟩] =
      .ok ⟨[], 0, [0], 0⟩) ∧
    (download.CopyState.renders ⟨[], 0, [0], 0⟩).getLast? =
      some (download.CopyState.written ⟨[], 0, [0], 0⟩) := by
  constructor
  · exact ((copyWithProgress_zero_read (fun _ => false)).2.2).1
  · exact (copyWithProgress_zero_read (fun _ => false)).2.1
      [⟨[], .readOk⟩, ⟨[], .readEOF⟩] ⟨[], 0, [0], 0⟩
      ((copyWithProgress_zero_read (fun _ => false)).2.2).1

section ClaimC9

theorem copyLoop_ok_spec (wfail : Nat → Bool) :
    ∀ (events : List download.ReadEvent) (st st' : download.CopyState),
      download.copyLoop wfail events st = .ok st' →
        st'.sink = st.sink ++ download.sourceBytes events ∧
        st'.written = st.written + (download.sourceBytes events).length := by
  intro events
  induction events with
  | nil =>
    intro st st' h
    simp only [download.copyLoop, Except.ok.injEq] at h
    subst h
    simp [download.sourceBytes]
  | cons ev evs ih =>
    intro st st' h
    rw [download.copyLoop] at h
    by_cases hc : ev.chunk.isEmpty
    · rw [if_pos hc] at h
      have hch : ev.chunk = [] := List.isEmpty_iff.mp hc
      cases ho : ev.outcome with
      | readEOF =>
        rw [ho] at h
        simp only [Except.ok.injEq] at h
        subst h
        simp [download.sourceBytes, hch, ho]
      | readErr =>
        rw [ho] at h
        exact absurd h (by simp)
      | readOk =>
        rw [ho] at h
        have := ih st st' h
        simp only [download.sourceBytes, hch, ho, List.nil_append]
        exact this
    · rw [if_neg hc] at h
      by_cases hw : wfail st.widx
      · rw [if_pos hw] at h
        exact absurd h (by simp)
      · rw [if_neg hw] at h
        cases ho : ev.outcome with
        | readEOF =>
          rw [ho] at h
          simp only [Except.ok.injEq] at h
          subst h
          simp [download.sourceBytes, ho]
        | readErr =>
          rw [ho] at h
          exact absurd h (by simp)
        | readOk =>
          rw [ho] at h
          obtain ⟨h1, h2⟩ := ih _ st' h
          simp only [download.sourceBytes, ho]
          constructor
          · rw [h1]
            simp
          · rw [h2]
            simp only [List.length_append]
            push_cast
            ring
  
/-- C9: on every successful return, the bytes written to the sink are
exactly the concatenation, in order, of all bytes produced by the source
(`sourceBytes`, the plain straight-through copy), and the reported written
count equals the length of that sequence. -/
theorem copyWithProgress_refines_plain (wfail : Nat → Bool)
    (events : List download.ReadEvent) (out : download.CopyState)
    (h : download.copyWithProgress wfail events = .ok out) :
    out.sink = download.sourceBytes events ∧
    out.written = (out.sink.length : Int) := by
  rw [download.copyWithProgress] at h
  cases hloop : download.copyLoop wfail events ⟨[], 0, [], 0⟩ with
  | error e =>
    rw [hloop] at h
    exact absurd h (by simp)
  | ok st =>
    rw [hloop] at h
    simp only [Except.ok.injEq] at h
    subst h
    obtain ⟨h1, h2⟩ := copyLoop_ok_spec wfail events _ st hloop
    simp only [List.nil_append] at h1
    exact ⟨h1, by rw [h2, h1]; simp⟩

end ClaimC9

/-- Witness for C9 at a two-chunk source whose final read carries data
together with EOF. -/
theorem copyWithProgress_refines_plain_witness :
    download.copyWithProgress (fun _ => false)
        [⟨[1, 2], .readOk⟩, ⟨[3], .readEOF⟩] =
      .ok ⟨[1, 2, 3], 3, [2, 3, 3], 2⟩ ∧
    (download.CopyState.sink ⟨[1, 2, 3], 3, [2, 3, 3], 2⟩ =
      download.sourceBytes [⟨[1, 2], .readOk⟩, ⟨[3], .readEOF⟩] ∧
    download.CopyState.written ⟨[1, 2, 3], 3, [2, 3, 3], 2⟩ =
      ((download.CopyState.sink ⟨[1, 2, 3], 3, [2, 3, 3], 2⟩).length : Int)) := by
  constructor
  · rfl
  · exact copyWithProgress_refines_plain (fun _ => false)
      [⟨[1, 2], .readOk⟩, ⟨[3], .readEOF⟩] ⟨[1, 2, 3], 3, [2, 3, 3], 2⟩ rfl

section ClaimC6

/-- C6: for every input classified Unknown (with a usable token), the
dispatcher attempts the video path first, invokes the channel path if and
only if the video attempt returned an error, and on a successful video
attempt returns success having attempted only the video path. -/
theorem download_unknown_tries_video_first (env : download.DispatchEnv)
    (m id tok : List Char)
    (hclass : download.extractIDAndType m = (id, .unknownType, none))
    (htok : env.tokenGet = .ok tok) :
    ((download.Download env m).2.head? = some .videoAtt) ∧
    (download.Attempt.channelAtt ∈ (download.Download env m).2 ↔
      env.videoRun id tok = .error ()) ∧
    (env.videoRun id tok = .ok () →
      download.Download env m = (.ok (), [.videoAtt])) := by
  simp only [download.Download, hclass, htok]
  cases hv : env.videoRun id tok with
  | ok u =>
    cases u
    simp
  | error e =>
    cases e
    cases hch : env.channelRun id tok with
    | ok u =>
      cases u
      simp
    | error e2 =>
      cases e2
      simp

end ClaimC6

/-- Witness for C6: a bare identifier (classified Unknown) in an
environment where the video attempt fails and the channel attempt
succeeds. -/
theorem download_unknown_tries_video_first_witness :
    (download.Download
        ⟨.ok "tok".data, fun _ _ => .error (), fun _ _ => .ok ()⟩
        "someid".data).2.head? = some .videoAtt ∧
    (download.Attempt.channelAtt ∈
      (download.Download
        ⟨.ok "tok".data, fun _ _ => .error (), fun _ _ => .ok ()⟩
        "someid".data).2 ↔
      (.error () : Except Unit Unit) = .error ()) := by
  have h := download_unknown_tries_video_first
    ⟨.ok "tok".data, fun _ _ => .error (), fun _ _ => .ok ()⟩
    "someid".data "someid".data "tok".data (by decide) rfl
  exact ⟨h.1, h.2.1⟩


section ClaimC8

/-- C8: for every title containing any of the illegal characters
`/ \ : * ? " < > |`, the filename computed by the filename policy contains
none of those characters and contains no run of two or more consecutive
replacement dashes. -/
theorem createFilename_strips_bad_chars (title : List Char)
    (hbad : ∃ c ∈ badChars, c ∈ title) :
    (∀ c ∈ badChars,
      c ∉ file.createFilename title "video/mp4".data [] false) ∧
    containsList ['-', '-']
      (file.createFilename title "video/mp4".data [] false) = false := by
  clear hbad
  have hsplit : splitOnChar '/' "video/mp4".data =
      ["video".data, "mp4".data] := by
    have hshape : "video/mp4".data = "video".data ++ '/' :: "mp4".data := rfl
    rw [hshape]
    exact splitOnChar_pair '/' _ _ (by decide) (by decide)
  have hext : extensionOf "video/mp4".data = ['m', 'p', '4'] := by
    rw [extensionOf, if_pos (by rw [hsplit]; simp)]
    rw [hsplit]
    rfl
  rw [file.createFilename, if_neg (by simp), hext]
  set u := replaceAll [' '] ['_'] (file.sanitizeFilename title) with hu
  have hu_nobad : ∀ c ∈ badChars, c ∉ u := by
    intro c hc
    exact notMem_underscore ((by decide : ∀ x ∈ badChars, x ≠ '_') c hc)
      (file.sanitize_notMem_bad title hc)
  have hu_nopair : containsList ['-', '-'] u = false :=
    no_pair_underscore (file.sanitize_no_pair title)
  have hfname_nobad : ∀ c ∈ badChars, c ∉ u ++ '.' :: ['m', 'p', '4'] := by
    intro c hc hmem
    rcases List.mem_append.mp hmem with h | h
    · exact hu_nobad c hc h
    · simp only [List.mem_cons, List.not_mem_nil, or_false] at h
      rcases h with rfl | rfl | rfl | rfl <;> revert hc <;> decide
  have hfname_nopair :
      containsList ['-', '-'] (u ++ '.' :: ['m', 'p', '4']) = false := by
    apply no_pair_append hu_nopair (by decide)
    intro y hy
    simp only [List.head?_cons, Option.mem_def, Option.some.injEq] at hy
    subst hy
    decide
  have hclean : filepathClean (u ++ '.' :: ['m', 'p', '4']) =
      u ++ '.' :: ['m', 'p', '4'] := by
    apply filepathClean_id
    · intro h
      have := congrArg List.length h
      simp at this
    · intro h
      have := congrArg List.length h
      simp at this
    · intro h
      have := congrArg List.length h
      simp at this
    · intro c hcmem hcslash
      exact hfname_nobad '/' (by decide) (hcslash ▸ hcmem)
  rw [hclean]
  exact ⟨hfname_nobad, hfname_nopair⟩

end ClaimC8

/-- Witness for C8 at a title containing several illegal characters. -/
theorem createFilename_strips_bad_chars_witness :
    (∃ c ∈ badChars, c ∈ "a/b:c".data) ∧
    ((∀ c ∈ badChars,
      c ∉ file.createFilename "a/b:c".data "video/mp4".data [] false) ∧
    containsList ['-', '-']
      (file.createFilename "a/b:c".data "video/mp4".data [] false) = false) :=
  ⟨by decide,
    createFilename_strips_bad_chars "a/b:c".data
      ⟨'/', by decide, by decide⟩⟩

section ClaimC3

/-- C3: for every bound `N ≥ 1` and every range token `"n-m"` with
`1 ≤ n ≤ m ≤ N`, `parseSelection` succeeds and returns exactly the set of
zero-based indices `{n-1, ..., m-1}`, sorted strictly ascending (hence
deduplicated).  The hypothesis `N < 2^63` records that a Go bound
(`len(videos)`) is a 64-bit `int`. -/
theorem parseSelection_valid_range (N n m : Nat)
    (h1 : 1 ≤ n) (h2 : n ≤ m) (h3 : m ≤ N) (hfit : N < 2 ^ 63) :
    download.parseSelection (natToDec n ++ '-' :: natToDec m) (N : Int) =
      .ok (download.rangeIdx (n : Int) (m + 1 - n)) ∧
    (∀ x : Int, x ∈ download.rangeIdx (n : Int) (m + 1 - n) ↔
      ((n : Int) - 1 ≤ x ∧ x ≤ (m : Int) - 1)) ∧
    List.Pairwise (· < ·) (download.rangeIdx (n : Int) (m + 1 - n)) := by
  have hn : n < 2 ^ 63 := by omega
  have hm : m < 2 ^ 63 := by omega
  obtain ⟨hne, hsep, hsp, hdash⟩ := download.rangeToken_facts n m
  have hpw := download.rangeIdx_pairwise (m + 1 - n) (n : Int)
  refine ⟨?_, ?_, hpw⟩
  · rw [download.parseSelection_one_token _ _ hne hsep hsp, if_pos hdash,
      download.handleRangePart_eval n m (N : Int) hn hm]
    rw [if_neg (by push_cast; omega)]
    have hk : ((m : Int) + 1 - (n : Int)).toNat = m + 1 - n := by omega
    rw [download.addRange_spec (m + 1 - n) (n : Int) (m : Int) hk [] []
      (by simp)]
    simp only [List.nil_append]
    have hne2 : download.rangeIdx (n : Int) (m + 1 - n) ≠ [] :=
      download.rangeIdx_ne_nil (by omega) _
    rw [if_neg hne2, sortInts_of_pairwise _ (hpw.imp fun h => le_of_lt h)]
  · intro x
    rw [download.rangeIdx_mem]
    have hcast : ((m + 1 - n : Nat) : Int) = (m : Int) + 1 - (n : Int) := by
      omega
    rw [hcast]
    omega

end ClaimC3

/-- Witness for C3 at `N = 3`, token `"1-2"`. -/
theorem parseSelection_valid_range_witness :
    download.parseSelection (natToDec 1 ++ '-' :: natToDec 2)
      ((3 : Nat) : Int) =
      .ok (download.rangeIdx ((1 : Nat) : Int) (2 + 1 - 1)) ∧
    (∀ x : Int, x ∈ download.rangeIdx ((1 : Nat) : Int) (2 + 1 - 1) ↔
      (((1 : Nat) : Int) - 1 ≤ x ∧ x ≤ ((2 : Nat) : Int) - 1)) ∧
    List.Pairwise (· < ·) (download.rangeIdx ((1 : Nat) : Int) (2 + 1 - 1)) :=
  parseSelection_valid_range 3 1 2 (by norm_num) (by norm_num) (by norm_num)
    (by norm_num)

section ClaimC4

/-- C4: for every bound, a range token `"n-m"` with `n > bound`,
`m > bound` or `n > m` yields the invalid-range error, and a single number
token outside `[1, bound]` yields the out-of-range error; in both cases
the error is returned instead of any indices (the `Except` error carries
no index list, mirroring Go's `(nil, err)` returns).  The `2^63`
hypotheses record that the token values are 64-bit-representable. -/
theorem parseSelection_rejects_out_of_range (N n m k : Nat)
    (hn : n < 2 ^ 63) (hm : m < 2 ^ 63) (hk : k < 2 ^ 63)
    (hrange : N < n ∨ N < m ∨ m < n)
    (hsingle : k = 0 ∨ N < k) :
    download.parseSelection (natToDec n ++ '-' :: natToDec m) (N : Int) =
      .error (.invalidRange (n : Int) (m : Int) (N : Int)) ∧
    download.parseSelection (natToDec k) (N : Int) =
      .error (.numberOutOfRange (k : Int) (N : Int)) := by
  constructor
  · obtain ⟨hne, hsep, hsp, hdash⟩ := download.rangeToken_facts n m
    rw [download.parseSelection_one_token _ _ hne hsep hsp, if_pos hdash,
      download.handleRangePart_eval n m (N : Int) hn hm]
    have hcond : (n : Int) < 1 ∨ (m : Int) > (N : Int) ∨
        (n : Int) > (m : Int) := by
      rcases hrange with h | h | h
      · by_cases hnm : n ≤ m
        · right; left; push_cast; omega
        · right; right; push_cast; omega
      · right; left; push_cast; omega
      · right; right; push_cast; omega
    rw [if_pos hcond]
  · have hne : natToDec k ≠ [] := natToDec_ne_nil k
    have hnodash : containsList ['-'] (natToDec k) = false := by
      rw [Bool.eq_false_iff]
      intro hc
      exact absurd (containsList_single '-' (natToDec k) |>.mp hc)
        (fun hmem => (download.natToDec_token_facts k).2.2 '-' hmem rfl)
    rw [download.parseSelection_one_token _ _ hne
      (download.natToDec_token_facts k).1 (download.natToDec_token_facts k).2.1]
    rw [if_neg (by rw [hnodash]; simp)]
    simp only [download.handleSinglePart, goAtoi_natToDec hk]
    have hcond2 : (k : Int) < 1 ∨ (k : Int) > (N : Int) := by
      rcases hsingle with h | h
      · left; omega
      · right; omega
    rw [if_pos hcond2]

end ClaimC4

/-- Witness for C4 at bound 3: range token `"2-5"` (end beyond the bound)
and single token `"4"` (beyond the bound). -/
theorem parseSelection_rejects_out_of_range_witness :
    download.parseSelection (natToDec 2 ++ '-' :: natToDec 5)
      ((3 : Nat) : Int) =
      .error (.invalidRange ((2 : Nat) : Int) ((5 : Nat) : Int)
        ((3 : Nat) : Int)) ∧
    download.parseSelection (natToDec 4) ((3 : Nat) : Int) =
      .error (.numberOutOfRange ((4 : Nat) : Int) ((3 : Nat) : Int)) :=
  parseSelection_rejects_out_of_range 3 2 5 4 (by norm_num) (by norm_num)
    (by norm_num) (by norm_num) (by norm_num)

section ClaimC1

/-- C1 (divergence witness): in the pre-flight revision of the channel
batch (`channelDownloader.downloadSelectedVideos`), with 3 selected videos
where only video #2's variant fetch fails, videos #1 and #3 *are*
downloaded (the returned ID list), the batch is not aborted, and video
#2's title is listed under failures — but the summary reports `1/3`
successful rather than the claimed `2/3`: `printResults` subtracts the
whole failure list (pre-flight failures included) from the count of
videos that entered the download pass. -/
theorem channel_batch_scenario_miscounts :
    download.channelDownloadSelectedVideos download.scenarioEnv
        download.scenarioVideos [0, 1, 2] =
      (⟨1, 3, ["t2".data]⟩, ["id1".data, "id3".data]) ∧
    (download.channelDownloadSelectedVideos download.scenarioEnv
        download.scenarioVideos [0, 1, 2]).2.length = 2 ∧
    (download.channelDownloadSelectedVideos download.scenarioEnv
        download.scenarioVideos [0, 1, 2]).1.successful ≠ 2 := by
  refine ⟨rfl, rfl, by decide⟩

/-- The earlier one-pass revision (channel.go `downloadSelectedVideos`)
reports the same scenario correctly: 2/3 successful with video #2's title
under failures, videos #1 and #3 downloaded. -/
theorem legacy_channel_batch_scenario :
    download.legacyDownloadSelectedVideos download.scenarioDl
        download.scenarioVideos [0, 1, 2] =
      (⟨2, 3, ["t2".data]⟩, ["id1".data, "id3".data]) := by
  rfl

end ClaimC1
